import Mathlib

/-!
Shallow embedding of the sshllm interactive session engine
(src/chat.rs, src/logger.rs, src/server.rs) and verification of the
specification's claims about it.

String-manipulating helpers mirror the Rust standard-library functions the
source uses (`str::trim`, `str::split_once`, `BufRead::lines`,
`u32::from_str`, `str::splitn`), restricted to the ASCII data the program
works with.
-/

namespace SshLlm

/-- Whitespace test used by `str::trim` (ASCII portion, which is all the
program ever produces). -/
def isWsp (c : Char) : Bool :=
  c == ' ' || c == '\t' || c == '\n' || c == '\r'

/-- Model of Rust `str::trim`: drop whitespace from both ends. -/
def rustTrim (s : String) : String :=
  ⟨((s.data.dropWhile isWsp).reverse.dropWhile isWsp).reverse⟩

/-- Model of Rust `str::split_once` on a separator character, on char lists:
split at the first occurrence of `sep`, returning the pieces before and
after it. -/
def splitOnceAux (sep : Char) : List Char → Option (List Char × List Char)
  | [] => none
  | c :: cs =>
    if c = sep then some ([], cs)
    else (splitOnceAux sep cs).map (fun p => (c :: p.1, p.2))

/-- Model of Rust `str::split_once` on strings. -/
def splitOnceChar (sep : Char) (s : String) : Option (String × String) :=
  (splitOnceAux sep s.data).map (fun p => (⟨p.1⟩, ⟨p.2⟩))

/-- Split a char list on newline characters (the separators are removed;
a list of `n` newlines yields `n+1` segments). -/
def splitNl : List Char → List (List Char)
  | [] => [[]]
  | c :: cs =>
    if c = '\n' then [] :: splitNl cs
    else
      match splitNl cs with
      | [] => [[c]]
      | l :: ls => (c :: l) :: ls

/-- Strip one trailing carriage return, as `BufRead::lines` does per line. -/
def stripCr (l : List Char) : List Char :=
  if l.getLast? = some '\r' then l.dropLast else l

/-- Drop a final empty segment (the artifact of a trailing newline). -/
def dropLastEmpty (ps : List (List Char)) : List (List Char) :=
  match ps.getLast? with
  | some [] => ps.dropLast
  | _ => ps

/-- Model of Rust `BufRead::lines` on a whole file content: split on
newlines, drop the final empty segment produced by a trailing newline, and
strip one trailing `\r` from each line. -/
def rustLines (s : String) : List String :=
  (dropLastEmpty (splitNl s.data)).map (fun l => ⟨stripCr l⟩)

/-- Decimal digit value of a character, if it is one. -/
def decDigit (c : Char) : Option Nat :=
  if '0' ≤ c ∧ c ≤ '9' then some (c.toNat - 48) else none

/-- Accumulating decimal parser: fails on any non-digit character. -/
def parseDigitsAux (acc : Nat) : List Char → Option Nat
  | [] => some acc
  | c :: cs =>
    match decDigit c with
    | none => none
    | some d => parseDigitsAux (acc * 10 + d) cs

/-- Digit-sequence part of `u32::from_str`: one or more decimal digits,
value at most `u32::MAX`. -/
def parseU32Core (cs : List Char) : Option Nat :=
  if cs.isEmpty then none
  else
    match parseDigitsAux 0 cs with
    | none => none
    | some n => if n < 4294967296 then some n else none

/-- Model of Rust `u32::from_str`: an optional leading `+`, then one or
more decimal digits, value at most `u32::MAX`. -/
def parseU32 (s : String) : Option Nat :=
  parseU32Core (if s.data.head? = some '+' then s.data.tail else s.data)

/-- `value.parse::<u32>().unwrap_or(0)` as used in `logger.rs`. -/
def parseU32OrZero (s : String) : Nat :=
  (parseU32 s).getD 0

/-- Decimal digit character. -/
def natDigitChar (n : Nat) : Char := Char.ofNat (48 + n)

/-- Fuel-driven decimal printer (most significant digit first). -/
def natDecAux : Nat → Nat → List Char
  | 0, _ => []
  | fuel + 1, n =>
    if n < 10 then [natDigitChar n]
    else natDecAux fuel (n / 10) ++ [natDigitChar (n % 10)]

/-- Decimal rendering of a natural number, as Rust `{}` formatting of an
unsigned integer produces. -/
def natDec (n : Nat) : String := ⟨natDecAux (n + 1) n⟩

/-- ASCII lowercasing, modelling `str::to_lowercase` on the ASCII command
words the program compares. -/
def lowerStr (s : String) : String := ⟨s.data.map Char.toLower⟩

/-- `true` iff the string contains no newline character. -/
def noNl (s : String) : Bool := s.data.all (fun c => !(c == '\n'))

/-- Does `pat` occur at the head of `l`? -/
def matchesAt : List Char → List Char → Bool
  | [], _ => true
  | _ :: _, [] => false
  | a :: as, b :: bs => a == b && matchesAt as bs

/-- Does `pat` occur anywhere in `l`? -/
def hasSub (pat : List Char) : List Char → Bool
  | [] => matchesAt pat []
  | c :: cs => matchesAt pat (c :: cs) || hasSub pat cs

/-- Substring test: does `s` contain `pat`? -/
def strHas (s pat : String) : Bool := hasSub pat.data s.data

/-- A string that survives a `writeln!`/`BufRead::lines` round trip as one
line unchanged: no newline inside and no trailing carriage return. -/
def lineOk (s : String) : Bool :=
  noNl s && !(s.data.getLast? == some '\r')

/-! ## Session Memory Store (src/logger.rs) -/

/-- `UserSummary` from `logger.rs`: optional name and a `u32` session
counter (represented as a `Nat` kept below `2^32`). -/
structure UserSummary where
  name : Option String
  total_sessions : Nat
deriving DecidableEq, Repr

/-- One iteration of the summary-file parsing loop in
`ClientLogger::update_session_start`: split the line at the first `:`,
lowercase and trim the key, trim the value; the `name` and
`total_sessions` keys update the summary, everything else is ignored. -/
def summStep (acc : UserSummary) (line : String) : UserSummary :=
  match splitOnceChar ':' line with
  | none => acc
  | some kv =>
    let key := lowerStr (rustTrim kv.1)
    let value := rustTrim kv.2
    if key = "name" then { acc with name := some value }
    else if key = "total_sessions" then { acc with total_sessions := parseU32OrZero value }
    else acc

/-- The summary-file parse loop of `update_session_start`, starting from
the default summary. -/
def parseSummary (lines : List String) : UserSummary :=
  lines.foldl summStep ⟨none, 0⟩

/-- One iteration of the parsing loop in `ClientLogger::set_user_name`,
which reads only the `total_sessions` key. -/
def totStep (t : Nat) (line : String) : Nat :=
  match splitOnceChar ':' line with
  | none => t
  | some kv =>
    if lowerStr (rustTrim kv.1) = "total_sessions" then parseU32OrZero (rustTrim kv.2)
    else t

/-- The parse loop of `set_user_name`. -/
def parseTotalOnly (lines : List String) : Nat :=
  lines.foldl totStep 0

/-- The three (or two) lines written by `ClientLogger::write_summary`;
`now` stands for the `last_seen` timestamp taken at write time. -/
def writeSummaryLines (s : UserSummary) (now : String) : List String :=
  (match s.name with
   | some n => ["name: " ++ n]
   | none => []) ++
  ["total_sessions: " ++ natDec s.total_sessions, "last_seen: " ++ now]

/-- Join lines into a file content, each line terminated by `\n`, as
repeated `writeln!` calls produce. -/
def joinNl (ls : List String) : String :=
  match ls with
  | [] => ""
  | l :: ls => l ++ "\n" ++ joinNl ls

/-- File content written by `ClientLogger::write_summary`. -/
def writeSummaryStr (s : UserSummary) (now : String) : String :=
  joinNl (writeSummaryLines s now)

/-- Read a summary file (`none` = file absent, giving the default
summary), as the loops in `logger.rs` do. -/
def parseSummaryFile (file : Option String) : UserSummary :=
  match file with
  | none => ⟨none, 0⟩
  | some content => parseSummary (rustLines content)

/-- `ClientLogger::update_session_start`: parse the existing summary file
(defaults if absent), increment the `u32` session counter (wrapping), and
rewrite the file; returns the updated summary and the new file content. -/
def updateSessionStart (now : String) (file : Option String) : UserSummary × String :=
  let s0 := parseSummaryFile file
  let s1 : UserSummary := { s0 with total_sessions := (s0.total_sessions + 1) % 4294967296 }
  (s1, writeSummaryStr s1 now)

/-- `ClientLogger::set_user_name`: re-read only `total_sessions` from the
file, set the name, and rewrite the file; returns the new file content. -/
def setUserName (name now : String) (file : Option String) : String :=
  let t := match file with
    | none => 0
    | some content => parseTotalOnly (rustLines content)
  writeSummaryStr ⟨some name, t⟩ now

/-- The transcript line written by `ClientLogger::log_message`:
`[HH:MM:SS] role: content` with the timestamp supplied by the caller of
the model. -/
def logLine (ts role content : String) : String :=
  "[" ++ ts ++ "] " ++ role ++ ": " ++ content

/-- Parse one transcript line as `ClientLogger::load_today_history` does:
a leading `[`, everything up to the first `]` is the time, the rest is
trimmed and split at the first `:` into trimmed role and content. -/
def parseChatLine (line : String) : Option (String × String) :=
  match line.data with
  | '[' :: rest =>
    match splitOnceAux ']' rest with
    | none => none
    | some p =>
      let after := rustTrim ⟨p.2⟩
      match splitOnceChar ':' after with
      | none => none
      | some rc => some (rustTrim rc.1, rustTrim rc.2)
  | _ => none

/-- `ClientLogger::load_today_history`: parse every line that fits the
format and keep only the most recent 20 entries. -/
def loadTodayHistory (lines : List String) : List (String × String) :=
  let hist := lines.filterMap parseChatLine
  if hist.length > 20 then hist.drop (hist.length - 20) else hist

/-! ## Chat Context Manager (src/chat.rs) -/

/-- `Message` from `llm.rs`. -/
structure Message where
  role : String
  content : String
deriving DecidableEq, Repr

/-- A user-role message. -/
def userMsg (content : String) : Message := ⟨"user", content⟩

/-- An assistant-role message. -/
def assistantMsg (content : String) : Message := ⟨"assistant", content⟩

/-- Is this message an assistant-role message? -/
def isAsst (m : Message) : Bool := m.role == "assistant"

/-- In-memory state of a `ChatSession`: the configured base system prompt,
the bounded message history, and the loaded `UserSummary`. -/
structure ChatState where
  sysBase : String
  messages : List Message
  userSummary : UserSummary
deriving DecidableEq, Repr

/-- `ChatSession::system_prompt`: base prompt, plus a name instruction if
a name is stored, plus a session-count line if `total_sessions > 1`. -/
def systemPrompt (s : ChatState) : String :=
  (s.sysBase ++
    (match s.userSummary.name with
     | some n => "\n\nThe user's name is " ++ n ++ ". Address them by name occasionally."
     | none => "")) ++
  (if s.userSummary.total_sessions > 1 then
    "\nThis is session #" ++ natDec s.userSummary.total_sessions ++ " with this user."
   else "")

/-- `ChatSession::build_messages`: system message, then the whole current
history, then the current user input. -/
def buildMessages (s : ChatState) (userInput : String) : List Message :=
  ⟨"system", systemPrompt s⟩ :: (s.messages ++ [userMsg userInput])

/-- The message list `process_input` hands to `LlmClient::chat` for a
(trimmed, non-command) input: the user message is pushed onto the history
*before* `build_messages` runs, so `build_messages` sees it in the history
and appends it again. -/
def llmMessagesFor (s : ChatState) (input : String) : List Message :=
  buildMessages { s with messages := s.messages ++ [userMsg input] } input

/-- The `while self.messages.len() > 40 { self.messages.remove(0) }` loop,
driven by explicit fuel so it computes by kernel reduction. -/
def dropFuel : Nat → List Message → List Message
  | 0, l => l
  | fuel + 1, l => if l.length > 40 then dropFuel fuel l.tail else l

/-- History cap of `process_input`: repeatedly drop the oldest entry while
more than 40 remain. -/
def cap40 (l : List Message) : List Message := dropFuel l.length l

/-- Model of Rust `str::splitn(2, ' ')` as used by
`ChatSession::handle_command`: the part before the first space, and the
rest if a space exists. -/
def splitN2sp (s : String) : String × Option String :=
  match splitOnceChar ' ' s with
  | none => (s, none)
  | some p => (p.1, some p.2)

/-- Result of one `process_input` step: the returned `Result`, the updated
session state, the transcript file lines, and the summary file content. -/
structure StepOut where
  reply : Except String String
  st : ChatState
  chatLog : List String
  summary : Option String
deriving Repr

/-- `ChatSession::handle_command`: dispatch on the lowercased first
whitespace-delimited token; `now` is the timestamp `set_user_name` would
record. -/
def handleCommand (now : String) (s : ChatState) (log : List String)
    (file : Option String) (input : String) : StepOut :=
  let parts := splitN2sp input
  let cmd := lowerStr parts.1
  let arg := match parts.2 with
    | some a => rustTrim a
    | none => ""
  if cmd = "/name" then
    if arg = "" then ⟨.ok "Usage: /name <your name>", s, log, file⟩
    else
      ⟨.ok ("Nice to meet you, " ++ arg ++ "!"),
       { s with userSummary := { s.userSummary with name := some arg } },
       log, some (setUserName arg now file)⟩
  else if cmd = "/clear" then
    ⟨.ok "Chat history cleared.", { s with messages := [] }, log, file⟩
  else if cmd = "/help" then
    ⟨.ok "Commands:\n  /name <name> - Set your name\n  /clear - Clear history\n  /help - Show this\n  /quit - Exit",
     s, log, file⟩
  else if cmd = "/quit" ∨ cmd = "/exit" then
    ⟨.error "quit", s, log, file⟩
  else
    ⟨.ok "Unknown command. Type /help for available commands.", s, log, file⟩

/-- `ChatSession::process_input`. The backend (`LlmClient::chat`) is a
parameter; `tsU`/`tsA` are the timestamps of the two transcript lines and
`now` the timestamp a summary rewrite would record. Mirrors the source
order: trim; empty check; command dispatch; log the user line; push the
user message; build the outbound list; pop and re-push the user message;
call the backend; on success log and push the reply and enforce the cap. -/
def processInput (backend : List Message → Except String String)
    (tsU tsA now : String) (s : ChatState) (log : List String)
    (file : Option String) (input0 : String) : StepOut :=
  let input := rustTrim input0
  if input = "" then ⟨.ok "", s, log, file⟩
  else if input.data.head? = some '/' then handleCommand now s log file input
  else
    let log1 := log ++ [logLine tsU "user" input]
    let s1 := { s with messages := s.messages ++ [userMsg input] }
    let llmMsgs := buildMessages s1 input
    let s2 := { s1 with messages := s1.messages.dropLast ++ [userMsg input] }
    match backend llmMsgs with
    | .error e => ⟨.error e, s2, log1, file⟩
    | .ok resp =>
      ⟨.ok resp,
       { s2 with messages := cap40 (s2.messages ++ [assistantMsg resp]) },
       log1 ++ [logLine tsA "assistant" resp], file⟩

/-- `ChatSession::welcome_message`. -/
def welcomeMessage (summary : UserSummary) : String :=
  match summary.name with
  | some n => "Welcome back, " ++ n ++ "! How can I help you today?"
  | none => "Welcome! Type /name <your name> to introduce yourself, or just start chatting!"

/-- Session start (`ChatSession::new`): update the summary file, reload
recent history with role normalization (`user` kept, `assistant`/`ai`
normalized to assistant, others dropped). Returns the loaded summary, the
rewritten summary file, and the reconstructed history. -/
def sessionInit (now : String) (file : Option String) (log : List String) :
    UserSummary × String × List Message :=
  let su := updateSessionStart now file
  let msgs := (loadTodayHistory log).filterMap (fun rc =>
    if rc.1 = "user" then some (userMsg rc.2)
    else if rc.1 = "assistant" ∨ rc.1 = "ai" then some (assistantMsg rc.2)
    else none)
  (su.1, su.2, msgs)

/-- Fold `update_session_start` over a list of session-start timestamps,
threading the summary file from an arbitrary seed. -/
def startsFold (nows : List String) (seed : UserSummary × Option String) :
    UserSummary × Option String :=
  nows.foldl
    (fun acc now =>
      let r := updateSessionStart now acc.2
      (r.1, some r.2))
    seed

/-- Run `update_session_start` once per session start, threading the
summary file; the first component is the summary the most recent start
returned (the seed value for an empty start list). -/
def startsOutcome (nows : List String) (file : Option String) :
    UserSummary × Option String :=
  startsFold nows (⟨none, 0⟩, file)

/-- Run a sequence of `process_input` calls, threading session state,
transcript and summary file (replies are delivered to the client and not
threaded). -/
def runInputs (backend : List Message → Except String String)
    (tsU tsA now : String) : StepOut → List String → StepOut
  | out, [] => out
  | out, i :: is =>
    let out' := processInput backend tsU tsA now out.st out.chatLog out.summary i
    runInputs backend tsU tsA now out' is

/-! ## Terminal Input State Machine (src/server.rs, `SshHandler::data`) -/

/-- Observable effects of the byte loop in `SshHandler::data`: echoes, the
"(thinking...)" acknowledgment, the re-printed prompt, a completed-line
event (the spawned `process_input` unit of work), a one-character erase
echo (`\x08 \x08`), a single-character echo, and the interrupt close. -/
inductive TermOut where
  | echoNewline : TermOut
  | thinking : TermOut
  | promptAgain : TermOut
  | lineEvent : String → TermOut
  | eraseChar : TermOut
  | echoChar : Char → TermOut
  | interruptClose : TermOut
deriving DecidableEq, Repr

/-- One byte of the `match byte` loop in `SshHandler::data`. Returns the
new line buffer, the emitted effects, and whether the handler returned
early (Ctrl-C), dropping the rest of the chunk. -/
def termStep (buf : String) (b : Nat) : String × List TermOut × Bool :=
  if b = 13 ∨ b = 10 then
    let t := rustTrim buf
    ("", TermOut.echoNewline ::
      (if t ≠ "" then [TermOut.thinking, TermOut.lineEvent t] else [TermOut.promptAgain]),
     false)
  else if b = 127 ∨ b = 8 then
    if buf ≠ "" then (⟨buf.data.dropLast⟩, [TermOut.eraseChar], false)
    else (buf, [], false)
  else if b = 3 then
    (buf, [TermOut.interruptClose], true)
  else if 32 ≤ b ∧ b ≤ 126 then
    (buf.push (Char.ofNat b), [TermOut.echoChar (Char.ofNat b)], false)
  else
    (buf, [], false)

/-- Process one data chunk byte by byte; an early return (Ctrl-C) drops
the remaining bytes of the chunk, as `return Ok(())` does in the source. -/
def processChunk : String → List Nat → String × List TermOut
  | buf, [] => (buf, [])
  | buf, b :: bs =>
    let step := termStep buf b
    if step.2.2 then (step.1, step.2.1)
    else
      let rest := processChunk step.1 bs
      (rest.1, step.2.1 ++ rest.2)

/-- Number of erase-one-character echo instructions in an effect list. -/
def countErase (outs : List TermOut) : Nat :=
  outs.countP (fun o => match o with | TermOut.eraseChar => true | _ => false)

/-- Number of printable-character echoes (one per character appended to
the line buffer) in an effect list. -/
def countEchoChar (outs : List TermOut) : Nat :=
  outs.countP (fun o => match o with | TermOut.echoChar _ => true | _ => false)

/-- The completed-line events of an effect list, in order. -/
def lineEvents (outs : List TermOut) : List String :=
  outs.filterMap (fun o => match o with | TermOut.lineEvent s => some s | _ => none)

/-! ## Concrete fixtures used by the counterexamples -/

/-- A backend that answers `"r"` until it is asked about the input
`"bad"`, at which point it fails: 20 successful turns, then one failing
turn. -/
def bkC2 : List Message → Except String String :=
  fun msgs => if msgs.any (fun m => m == userMsg "bad") then .error "boom" else .ok "r"

/-- Twenty ordinary inputs followed by the one the backend fails on. -/
def inputsC2 : List String :=
  ["m1", "m2", "m3", "m4", "m5", "m6", "m7", "m8", "m9", "m10",
   "m11", "m12", "m13", "m14", "m15", "m16", "m17", "m18", "m19", "m20", "bad"]

/-! ## Lemmas: trimming, line splitting and joining -/

theorem dropWhile_all_false {p : Char → Bool} :
    ∀ l : List Char, (∀ c ∈ l, p c = false) → l.dropWhile p = l := by
  intro l h
  induction l with
  | nil => rfl
  | cons c cs ih =>
    have hc : p c = false := h c (by simp)
    simp [List.dropWhile, hc]

theorem dropWhile_eq_self_head {p : Char → Bool} {l : List Char}
    (h : l.dropWhile p = l) : ∀ c, l.head? = some c → p c = false := by
  intro c hc
  cases l with
  | nil => simp at hc
  | cons a t =>
    have hac : a = c := by simpa using hc
    subst hac
    cases hp : p a with
    | false => rfl
    | true =>
      rw [List.dropWhile_cons_of_pos hp] at h
      have hle := (List.dropWhile_sublist (l := t) p).length_le
      have hlen := congrArg List.length h
      simp only [List.length_cons] at hlen
      omega

theorem rustTrim_eq_self_facts {s : String} (h : rustTrim s = s) :
    s.data.dropWhile isWsp = s.data ∧
    s.data.reverse.dropWhile isWsp = s.data.reverse := by
  have hd : ((s.data.dropWhile isWsp).reverse.dropWhile isWsp).reverse = s.data :=
    congrArg String.data h
  have h1 : (s.data.dropWhile isWsp).length ≤ s.data.length :=
    (List.dropWhile_sublist isWsp).length_le
  have h2 : ((s.data.dropWhile isWsp).reverse.dropWhile isWsp).length ≤
      (s.data.dropWhile isWsp).length := by
    have := (List.dropWhile_sublist (l := (s.data.dropWhile isWsp).reverse) isWsp).length_le
    simpa using this
  have hlen : ((s.data.dropWhile isWsp).reverse.dropWhile isWsp).length = s.data.length := by
    have := congrArg List.length hd
    simpa using this
  have hfront : s.data.dropWhile isWsp = s.data :=
    (List.dropWhile_sublist isWsp).eq_of_length (by omega)
  refine ⟨hfront, ?_⟩
  rw [hfront] at hd
  have := congrArg List.reverse hd
  simpa using this

theorem getLast_not_wsp {s : String} (h : rustTrim s = s) :
    ∀ c, s.data.getLast? = some c → isWsp c = false := by
  intro c hc
  have hb := (rustTrim_eq_self_facts h).2
  refine dropWhile_eq_self_head hb c ?_
  rw [← List.getLast?_eq_head?_reverse]
  exact hc

theorem rustTrim_cons_wsp {c : Char} (hc : isWsp c = true) (cs : List Char) :
    rustTrim ⟨c :: cs⟩ = rustTrim ⟨cs⟩ := by
  simp [rustTrim, List.dropWhile_cons_of_pos hc]

theorem rustTrim_of_all {l : List Char} (h : ∀ c ∈ l, isWsp c = false) :
    rustTrim ⟨l⟩ = ⟨l⟩ := by
  simp only [rustTrim]
  rw [dropWhile_all_false l h, dropWhile_all_false l.reverse (by simpa using h)]
  simp

theorem splitOnceAux_concat (sep : Char) :
    ∀ (l1 l2 : List Char), (∀ c ∈ l1, c ≠ sep) →
      splitOnceAux sep (l1 ++ sep :: l2) = some (l1, l2) := by
  intro l1 l2 h
  induction l1 with
  | nil => simp [splitOnceAux]
  | cons c cs ih =>
    have hc : c ≠ sep := h c (by simp)
    have := ih (fun x hx => h x (by simp [hx]))
    simp [splitOnceAux, hc, this]

theorem splitOnceChar_concat (sep : Char) (k v : List Char)
    (h : ∀ c ∈ k, c ≠ sep) :
    splitOnceChar sep ⟨k ++ sep :: v⟩ = some (⟨k⟩, ⟨v⟩) := by
  simp [splitOnceChar, splitOnceAux_concat sep k v h]

theorem splitNl_ne_nil : ∀ l : List Char, splitNl l ≠ [] := by
  intro l
  cases l with
  | nil => simp [splitNl]
  | cons c cs =>
    simp only [splitNl]
    split
    · simp
    · split <;> simp_all

theorem splitNl_append_cons :
    ∀ (l1 l2 : List Char), (∀ c ∈ l1, c ≠ '\n') →
      splitNl (l1 ++ '\n' :: l2) = l1 :: splitNl l2 := by
  intro l1 l2 h
  induction l1 with
  | nil => simp [splitNl]
  | cons c cs ih =>
    have hc : c ≠ '\n' := h c (by simp)
    have hrec := ih (fun x hx => h x (by simp [hx]))
    simp only [List.cons_append, splitNl, if_neg hc, List.append_eq, hrec]

theorem dropLastEmpty_cons {a : List Char} {t : List (List Char)} (h : t ≠ []) :
    dropLastEmpty (a :: t) = a :: dropLastEmpty t := by
  obtain ⟨x, ts, rfl⟩ := List.exists_cons_of_ne_nil h
  unfold dropLastEmpty
  rw [List.getLast?_cons_cons]
  cases hg : (x :: ts).getLast? with
  | none => rfl
  | some val =>
    cases val with
    | nil => exact List.dropLast_cons_of_ne_nil (by simp)
    | cons y ys => rfl

theorem stripCr_eq_self {l : List Char} (h : l.getLast? ≠ some '\r') :
    stripCr l = l := by
  simp [stripCr, h]

theorem noNl_chars {s : String} (h : noNl s = true) : ∀ c ∈ s.data, c ≠ '\n' := by
  intro c hc
  have := List.all_eq_true.mp h c hc
  simpa using this

theorem lineOk_parts {s : String} (h : lineOk s = true) :
    noNl s = true ∧ s.data.getLast? ≠ some '\r' := by
  have h' := Bool.and_eq_true_iff.mp h
  refine ⟨h'.1, ?_⟩
  have h2 := h'.2
  intro hc
  rw [hc] at h2
  simp at h2

theorem rustLines_nil : rustLines "" = [] := rfl

theorem rustLines_cons (l rest : String) (h : noNl l = true) :
    rustLines (l ++ "\n" ++ rest) = ⟨stripCr l.data⟩ :: rustLines rest := by
  have hdata : (l ++ "\n" ++ rest).data = l.data ++ '\n' :: rest.data := by
    simp [String.data_append]
  simp only [rustLines, hdata]
  rw [splitNl_append_cons l.data rest.data (noNl_chars h),
    dropLastEmpty_cons (splitNl_ne_nil rest.data)]
  rfl

theorem rustLines_joinNl :
    ∀ ls : List String, (∀ l ∈ ls, lineOk l = true) →
      rustLines (joinNl ls) = ls := by
  intro ls h
  induction ls with
  | nil => exact rustLines_nil
  | cons l ls ih =>
    have hl := lineOk_parts (h l (by simp))
    rw [joinNl, rustLines_cons l (joinNl ls) hl.1,
      ih (fun x hx => h x (by simp [hx])), stripCr_eq_self hl.2]

/-! ## Lemmas: decimal printing and `u32` parsing round trip -/

theorem natDigitChar_digit {n : Nat} (h : n < 10) :
    '0' ≤ natDigitChar n ∧ natDigitChar n ≤ '9' := by
  interval_cases n <;> exact ⟨by decide, by decide⟩

theorem natDecAux_digits :
    ∀ fuel n : Nat, ∀ c ∈ natDecAux fuel n, '0' ≤ c ∧ c ≤ '9' := by
  intro fuel
  induction fuel with
  | zero => intro n c hc; simp [natDecAux] at hc
  | succ f ih =>
    intro n c hc
    by_cases hn : n < 10
    · simp only [natDecAux, if_pos hn, List.mem_singleton] at hc
      exact hc ▸ natDigitChar_digit hn
    · simp only [natDecAux, if_neg hn, List.mem_append, List.mem_singleton] at hc
      rcases hc with hc | hc
      · exact ih (n / 10) c hc
      · exact hc ▸ natDigitChar_digit (Nat.mod_lt n (by omega))

theorem digit_not_wsp {c : Char} (h : '0' ≤ c ∧ c ≤ '9') : isWsp c = false := by
  obtain ⟨h1, _⟩ := h
  simp only [isWsp, Bool.or_eq_false_iff, beq_eq_false_iff_ne, ne_eq]
  refine ⟨⟨⟨?_, ?_⟩, ?_⟩, ?_⟩ <;> (rintro rfl; exact absurd h1 (by decide))

theorem digit_ne_of_lt {c d : Char} (h : '0' ≤ c ∧ c ≤ '9') (hd : d < '0') :
    c ≠ d := by
  rintro rfl
  exact absurd h.1 (not_le.mpr hd)

theorem digit_ne_of_gt {c d : Char} (h : '0' ≤ c ∧ c ≤ '9') (hd : '9' < d) :
    c ≠ d := by
  rintro rfl
  exact absurd h.2 (not_le.mpr hd)

theorem decDigit_natDigitChar {n : Nat} (h : n < 10) :
    decDigit (natDigitChar n) = some n := by
  interval_cases n <;> decide

theorem parseDigitsAux_append :
    ∀ (l1 l2 : List Char) (acc : Nat),
      parseDigitsAux acc (l1 ++ l2) =
        (parseDigitsAux acc l1).bind (fun m => parseDigitsAux m l2) := by
  intro l1
  induction l1 with
  | nil => intro l2 acc; simp [parseDigitsAux]
  | cons c cs ih =>
    intro l2 acc
    simp only [List.cons_append, parseDigitsAux]
    cases hd : decDigit c with
    | none => simp
    | some d => simp [ih]

theorem natDecAux_parse :
    ∀ fuel n acc : Nat, n < fuel →
      parseDigitsAux acc (natDecAux fuel n) =
        some (acc * 10 ^ (natDecAux fuel n).length + n) := by
  intro fuel
  induction fuel with
  | zero => intro n acc h; omega
  | succ f ih =>
    intro n acc h
    by_cases hn : n < 10
    · simp only [natDecAux, if_pos hn, parseDigitsAux, decDigit_natDigitChar hn,
        List.length_singleton, pow_one]
    · have hdiv : n / 10 < f := by
        have : n / 10 < n := Nat.div_lt_self (by omega) (by omega)
        omega
      simp only [natDecAux, if_neg hn]
      rw [parseDigitsAux_append, ih (n / 10) acc hdiv]
      have hmod : n % 10 < 10 := Nat.mod_lt n (by omega)
      simp only [Option.some_bind, parseDigitsAux, decDigit_natDigitChar hmod,
        List.length_append, List.length_singleton]
      refine congrArg some ?_
      generalize (natDecAux f (n / 10)).length = L
      have hdm := Nat.div_add_mod n 10
      calc (acc * 10 ^ L + n / 10) * 10 + n % 10
          = acc * (10 ^ L * 10) + (10 * (n / 10) + n % 10) := by ring
        _ = acc * 10 ^ (L + 1) + n := by rw [hdm, pow_succ]

theorem natDecAux_ne_nil {f n : Nat} : natDecAux (f + 1) n ≠ [] := by
  simp only [natDecAux]
  split <;> simp

theorem parse_natDec {t : Nat} (ht : t < 4294967296) :
    parseU32 (natDec t) = some t := by
  have hne : natDecAux (t + 1) t ≠ [] := natDecAux_ne_nil
  have hdata : (natDec t).data = natDecAux (t + 1) t := rfl
  have hhead : ¬((natDec t).data.head? = some '+') := by
    rw [hdata]
    obtain ⟨c, cs, hcons⟩ := List.exists_cons_of_ne_nil hne
    have hdig : '0' ≤ c ∧ c ≤ '9' :=
      natDecAux_digits (t + 1) t c (by rw [hcons]; exact List.mem_cons_self c cs)
    have hplus : c ≠ '+' := digit_ne_of_lt hdig (by decide)
    rw [hcons]
    simpa using hplus
  unfold parseU32
  rw [if_neg hhead, hdata]
  unfold parseU32Core
  rw [if_neg (by simpa [List.isEmpty_iff] using hne)]
  rw [natDecAux_parse (t + 1) t 0 (by omega)]
  simp [ht]

theorem parseU32OrZero_natDec {t : Nat} (ht : t < 4294967296) :
    parseU32OrZero (natDec t) = t := by
  simp [parseU32OrZero, parse_natDec ht]

theorem parseU32Core_lt {cs : List Char} {n : Nat} (h : parseU32Core cs = some n) :
    n < 4294967296 := by
  unfold parseU32Core at h
  split at h
  · simp at h
  · split at h
    · simp at h
    · split at h
      · simp only [Option.some.injEq] at h
        omega
      · simp at h

theorem parseU32_lt {s : String} {n : Nat} (h : parseU32 s = some n) :
    n < 4294967296 := by
  unfold parseU32 at h
  exact parseU32Core_lt h

theorem parseU32OrZero_lt (s : String) : parseU32OrZero s < 4294967296 := by
  unfold parseU32OrZero
  cases hp : parseU32 s with
  | none => simp
  | some n => simpa using parseU32_lt hp

theorem natDec_trim (t : Nat) : rustTrim (natDec t) = natDec t :=
  rustTrim_of_all (fun c hc => digit_not_wsp (natDecAux_digits (t + 1) t c hc))

theorem natDec_lineOk (t : Nat) : lineOk (natDec t) = true := by
  have hnl : noNl (natDec t) = true := by
    simp only [noNl, List.all_eq_true]
    intro c hc
    have := natDecAux_digits (t + 1) t c hc
    simpa using digit_ne_of_lt this (by decide)
  have hcr : (natDec t).data.getLast? ≠ some '\r' := by
    intro hc
    have hmem : '\r' ∈ (natDec t).data := by
      rw [List.getLast?_eq_head?_reverse] at hc
      have := List.mem_of_mem_head? hc
      simpa using this
    exact absurd rfl (digit_ne_of_lt (natDecAux_digits (t + 1) t '\r' hmem) (by decide))
  simp [lineOk, hnl, hcr]

/-! ## Lemmas: summary file parsing against the written format -/

theorem lineOk_concat {a b : String} (ha : noNl a = true)
    (ha2 : a.data.getLast? ≠ some '\r') (hb : lineOk b = true) :
    lineOk (a ++ b) = true := by
  obtain ⟨hb1, hb2⟩ := lineOk_parts hb
  have hnl : noNl (a ++ b) = true := by
    simp only [noNl, String.data_append, List.all_append, Bool.and_eq_true]
    exact ⟨ha, hb1⟩
  have hlast : (a ++ b).data.getLast? ≠ some '\r' := by
    rw [String.data_append]
    cases hbd : b.data with
    | nil => simpa [hbd] using ha2
    | cons x xs =>
      rw [List.getLast?_append_of_ne_nil a.data (by simp [hbd])]
      rw [← hbd]
      exact hb2
  simp only [lineOk, hnl, Bool.true_and]
  simpa using hlast

theorem trim_lineOk {n : String} (h1 : rustTrim n = n) (h2 : noNl n = true) :
    lineOk n = true := by
  have hcr : n.data.getLast? ≠ some '\r' := by
    intro hc
    have := getLast_not_wsp h1 '\r' hc
    simp [isWsp] at this
  simp [lineOk, h2, hcr]

theorem summStep_nameLine (acc : UserSummary) (n : String) :
    summStep acc ("name: " ++ n) = { acc with name := some (rustTrim n) } := by
  have key : ("name: " ++ n) = (⟨"name".data ++ ':' :: ' ' :: n.data⟩ : String) := by
    ext1
    simp [String.data_append]
  rw [key]
  unfold summStep
  rw [splitOnceChar_concat ':' _ _ (by decide)]
  have hkey : lowerStr (rustTrim ⟨"name".data⟩) = "name" := by decide
  have hval : rustTrim (⟨' ' :: n.data⟩ : String) = rustTrim n :=
    rustTrim_cons_wsp (by decide) n.data
  simp [hkey, hval]

theorem summStep_totalLine (acc : UserSummary) (v : String) :
    summStep acc ("total_sessions: " ++ v) =
      { acc with total_sessions := parseU32OrZero (rustTrim v) } := by
  have key : ("total_sessions: " ++ v) =
      (⟨"total_sessions".data ++ ':' :: ' ' :: v.data⟩ : String) := by
    ext1
    simp [String.data_append]
  rw [key]
  unfold summStep
  rw [splitOnceChar_concat ':' _ _ (by decide)]
  have hkey : lowerStr (rustTrim ⟨"total_sessions".data⟩) = "total_sessions" := by decide
  have hval : rustTrim (⟨' ' :: v.data⟩ : String) = rustTrim v :=
    rustTrim_cons_wsp (by decide) v.data
  simp [hkey, hval]

theorem summStep_lastSeenLine (acc : UserSummary) (v : String) :
    summStep acc ("last_seen: " ++ v) = acc := by
  have key : ("last_seen: " ++ v) =
      (⟨"last_seen".data ++ ':' :: ' ' :: v.data⟩ : String) := by
    ext1
    simp [String.data_append]
  rw [key]
  unfold summStep
  rw [splitOnceChar_concat ':' _ _ (by decide)]
  have hkey : lowerStr (rustTrim ⟨"last_seen".data⟩) = "last_seen" := by decide
  simp [hkey]

theorem parse_write (nm : Option String) (t : Nat) (now : String)
    (hnow : lineOk now = true) (ht : t < 4294967296)
    (hnm : ∀ n, nm = some n → rustTrim n = n ∧ noNl n = true) :
    parseSummary (rustLines (writeSummaryStr ⟨nm, t⟩ now)) = ⟨nm, t⟩ := by
  have hlineTot : lineOk ("total_sessions: " ++ natDec t) = true :=
    lineOk_concat (by decide) (by decide) (natDec_lineOk t)
  have hlineSeen : lineOk ("last_seen: " ++ now) = true :=
    lineOk_concat (by decide) (by decide) hnow
  cases nm with
  | none =>
    rw [writeSummaryStr, writeSummaryLines]
    simp only [List.nil_append]
    rw [rustLines_joinNl _ (by
      intro l hl
      simp only [List.mem_cons, List.mem_singleton] at hl
      rcases hl with rfl | rfl | h
      · exact hlineTot
      · exact hlineSeen
      · simp at h)]
    rw [parseSummary, List.foldl_cons, List.foldl_cons, List.foldl_nil]
    rw [summStep_totalLine, summStep_lastSeenLine]
    rw [natDec_trim, parseU32OrZero_natDec ht]
  | some n =>
    obtain ⟨hn1, hn2⟩ := hnm n rfl
    have hlineName : lineOk ("name: " ++ n) = true :=
      lineOk_concat (by decide) (by decide) (trim_lineOk hn1 hn2)
    rw [writeSummaryStr, writeSummaryLines]
    simp only [List.cons_append, List.nil_append]
    rw [rustLines_joinNl _ (by
      intro l hl
      simp only [List.mem_cons, List.mem_singleton] at hl
      rcases hl with rfl | rfl | rfl | h
      · exact hlineName
      · exact hlineTot
      · exact hlineSeen
      · simp at h)]
    rw [parseSummary, List.foldl_cons, List.foldl_cons, List.foldl_cons, List.foldl_nil]
    rw [summStep_nameLine, summStep_totalLine, summStep_lastSeenLine]
    rw [natDec_trim, parseU32OrZero_natDec ht, hn1]

theorem foldl_total_eq :
    ∀ (lines : List String) (acc : UserSummary),
      (lines.foldl summStep acc).total_sessions =
        lines.foldl totStep acc.total_sessions := by
  intro lines
  induction lines with
  | nil => intro acc; rfl
  | cons l ls ih =>
    intro acc
    rw [List.foldl_cons, List.foldl_cons, ih]
    congr 1
    unfold summStep totStep
    cases hs : splitOnceChar ':' l with
    | none => rfl
    | some kv =>
      by_cases hk : lowerStr (rustTrim kv.1) = "name"
      · simp [hk]
      · by_cases hk2 : lowerStr (rustTrim kv.1) = "total_sessions"
        · simp [hk, hk2]
        · simp [hk, hk2]

theorem parseTotalOnly_eq (lines : List String) :
    (parseSummary lines).total_sessions = parseTotalOnly lines :=
  foldl_total_eq lines ⟨none, 0⟩

theorem foldl_totStep_lt :
    ∀ (lines : List String) (t : Nat), t < 4294967296 →
      lines.foldl totStep t < 4294967296 := by
  intro lines
  induction lines with
  | nil => intro t ht; simpa using ht
  | cons l ls ih =>
    intro t ht
    rw [List.foldl_cons]
    refine ih _ ?_
    unfold totStep
    split
    · exact ht
    · split
      · exact parseU32OrZero_lt _
      · exact ht

theorem parseTotalOnly_lt (lines : List String) :
    parseTotalOnly lines < 4294967296 :=
  foldl_totStep_lt lines 0 (by omega)

theorem parseSummaryFile_total_lt (file : Option String) :
    (parseSummaryFile file).total_sessions < 4294967296 := by
  cases file with
  | none => simp [parseSummaryFile]
  | some c =>
    simp only [parseSummaryFile]
    rw [parseTotalOnly_eq]
    exact parseTotalOnly_lt _

theorem updateSessionStart_anon {file : Option String} {k : Nat} (now : String)
    (hp : parseSummaryFile file = ⟨none, k⟩) (hnow : lineOk now = true) :
    (updateSessionStart now file).1 = ⟨none, (k + 1) % 4294967296⟩ ∧
    parseSummaryFile (some (updateSessionStart now file).2) =
      ⟨none, (k + 1) % 4294967296⟩ := by
  constructor
  · simp [updateSessionStart, hp]
  · have h2 : (updateSessionStart now file).2 =
        writeSummaryStr ⟨none, (k + 1) % 4294967296⟩ now := by
      simp [updateSessionStart, hp]
    rw [h2]
    simp only [parseSummaryFile]
    exact parse_write none ((k + 1) % 4294967296) now hnow
      (Nat.mod_lt _ (by omega)) (fun n hn => Option.noConfusion hn)

theorem startsFold_inv :
    ∀ (nows : List String) (file : Option String) (k : Nat) (acc0 : UserSummary),
      (∀ t ∈ nows, lineOk t = true) →
      parseSummaryFile file = ⟨none, k⟩ → k < 4294967296 →
      parseSummaryFile (startsFold nows (acc0, file)).2 =
        ⟨none, (k + nows.length) % 4294967296⟩ ∧
      (startsFold nows (acc0, file)).1 =
        (if nows.isEmpty then acc0
         else ⟨none, (k + nows.length) % 4294967296⟩) := by
  intro nows
  induction nows with
  | nil =>
    intro file k acc0 h hp hk
    simp only [startsFold, List.foldl_nil, List.length_nil, List.isEmpty_nil, if_true]
    have hmod : (k + 0) % 4294967296 = k := by omega
    rw [hmod]
    exact ⟨hp, trivial⟩
  | cons now rest ih =>
    intro file k acc0 h hp hk
    have hnow : lineOk now = true := h now (by simp)
    obtain ⟨hu1, hu2⟩ := updateSessionStart_anon now hp hnow
    have hrec :=
      ih (some (updateSessionStart now file).2) ((k + 1) % 4294967296)
        (updateSessionStart now file).1
        (fun t ht => h t (by simp [ht])) hu2 (Nat.mod_lt _ (by omega))
    have harith :
        ((k + 1) % 4294967296 + rest.length) % 4294967296 =
          (k + (rest.length + 1)) % 4294967296 := by
      omega
    simp only [startsFold, List.foldl_cons] at hrec ⊢
    constructor
    · rw [hrec.1, harith]
      simp [List.length_cons]
    · rw [hrec.2]
      cases hre : rest.isEmpty with
      | true =>
        have : rest = [] := by
          cases rest with
          | nil => rfl
          | cons a b => simp at hre
        subst this
        simp [hu1]
      | false =>
        simp only [hre, List.isEmpty_cons, List.length_cons,
          Bool.false_eq_true, if_false]
        rw [harith]

/-! ## Lemmas: history cap and `process_input` characterizations -/

theorem dropFuel_eq :
    ∀ (f : Nat) (l : List Message), l.length ≤ f + 40 →
      dropFuel f l = l.drop (l.length - 40) := by
  intro f
  induction f with
  | zero =>
    intro l h
    have h0 : l.length - 40 = 0 := by omega
    simp [dropFuel, h0]
  | succ f ih =>
    intro l h
    by_cases hl : l.length > 40
    · simp only [dropFuel, if_pos hl]
      have htl : l.tail.length ≤ f + 40 := by
        simp only [List.length_tail]
        omega
      rw [ih l.tail htl]
      simp only [List.length_tail]
      rw [List.drop_tail]
      congr 1
      omega
    · simp only [dropFuel, if_neg hl]
      have h0 : l.length - 40 = 0 := by omega
      simp [h0]

theorem cap40_eq_drop (l : List Message) : cap40 l = l.drop (l.length - 40) :=
  dropFuel_eq l.length l (by omega)

theorem processInput_err (backend : List Message → Except String String)
    (tsU tsA now : String) (s : ChatState) (log : List String)
    (file : Option String) (input0 : String) (e : String)
    (h1 : ¬(rustTrim input0 = ""))
    (h2 : ¬((rustTrim input0).data.head? = some '/'))
    (hb : backend (llmMessagesFor s (rustTrim input0)) = .error e) :
    processInput backend tsU tsA now s log file input0 =
      ⟨.error e, { s with messages := s.messages ++ [userMsg (rustTrim input0)] },
       log ++ [logLine tsU "user" (rustTrim input0)], file⟩ := by
  have hb' := hb
  rw [llmMessagesFor] at hb'
  simp only [processInput, if_neg h1, if_neg h2, hb', List.dropLast_concat]

theorem processInput_ok (backend : List Message → Except String String)
    (tsU tsA now : String) (s : ChatState) (log : List String)
    (file : Option String) (input0 : String) (r : String)
    (h1 : ¬(rustTrim input0 = ""))
    (h2 : ¬((rustTrim input0).data.head? = some '/'))
    (hb : backend (llmMessagesFor s (rustTrim input0)) = .ok r) :
    processInput backend tsU tsA now s log file input0 =
      ⟨.ok r,
       { s with
          messages := cap40 (s.messages ++ [userMsg (rustTrim input0), assistantMsg r]) },
       log ++ [logLine tsU "user" (rustTrim input0), logLine tsA "assistant" r],
       file⟩ := by
  have hb' := hb
  rw [llmMessagesFor] at hb'
  simp only [processInput, if_neg h1, if_neg h2, hb', List.dropLast_concat,
    List.append_assoc, List.cons_append, List.nil_append]

theorem filter_asst_llm (st : ChatState) (i2 : String) :
    (llmMessagesFor st i2).filter isAsst = st.messages.filter isAsst := by
  have hsys : isAsst ⟨"system", systemPrompt { st with messages := st.messages ++ [userMsg i2] }⟩ = false := by
    simp [isAsst]
  have husr : isAsst (userMsg i2) = false := by
    simp [isAsst, userMsg]
  simp [llmMessagesFor, buildMessages, List.filter_append, hsys, husr,
    List.filter_cons_of_neg]

/-! ## Lemmas: terminal input state machine -/

theorem termStep_inv (buf : String) (b : Nat) :
    countErase (termStep buf b).2.1 + (termStep buf b).1.data.length ≤
      buf.data.length + countEchoChar (termStep buf b).2.1 := by
  unfold termStep
  by_cases h1 : b = 13 ∨ b = 10
  · rw [if_pos h1]
    by_cases ht : rustTrim buf = ""
    · simp [ht, countErase, countEchoChar]
    · simp [ht, countErase, countEchoChar]
  · rw [if_neg h1]
    by_cases h2 : b = 127 ∨ b = 8
    · rw [if_pos h2]
      by_cases hbuf : buf = ""
      · rw [if_neg (by simp [hbuf])]
        simp [countErase, countEchoChar]
      · rw [if_pos hbuf]
        have hne : buf.data ≠ [] := by
          intro h0
          apply hbuf
          ext1
          simpa using h0
        have hpos : 0 < buf.data.length := List.length_pos.mpr hne
        have hpos2 : 0 < buf.length := hpos
        simp [countErase, countEchoChar, List.length_dropLast]
        omega
    · rw [if_neg h2]
      by_cases h3 : b = 3
      · rw [if_pos h3]
        simp [countErase, countEchoChar]
      · rw [if_neg h3]
        by_cases h4 : 32 ≤ b ∧ b ≤ 126
        · rw [if_pos h4]
          simp [countErase, countEchoChar, String.data_push]
        · rw [if_neg h4]
          simp [countErase, countEchoChar]

theorem processChunk_inv :
    ∀ (bs : List Nat) (buf : String),
      countErase (processChunk buf bs).2 + (processChunk buf bs).1.data.length ≤
        buf.data.length + countEchoChar (processChunk buf bs).2 := by
  intro bs
  induction bs with
  | nil => intro buf; simp [processChunk, countErase, countEchoChar]
  | cons b bs ih =>
    intro buf
    have hstep := termStep_inv buf b
    have hrec := ih (termStep buf b).1
    simp only [processChunk]
    split
    · exact hstep
    · simp only [countErase, countEchoChar, List.countP_append] at *
      omega

/-! ## Claim theorems -/

/-- C1: the spec says the outbound list for a non-empty, non-command input
is one system message, the prior `sequence`, then the new user message
exactly once. The code pushes the user message into the history before
`build_messages` clones it and appends it again, so the list handed to the
backend contains the new user message twice (the pop meant to remove the
duplicate runs only after the clone, and on the session's own history).
On a fresh session with input `"hi"`, the backend receives
`[system, user "hi", user "hi"]`, and a backend that reports how many
copies of `user "hi"` it was given reports 2. -/
theorem claim_C1_duplicate_outbound_user :
    llmMessagesFor ⟨"You are a helpful assistant.", [], ⟨none, 0⟩⟩ "hi" =
      [⟨"system", "You are a helpful assistant."⟩, userMsg "hi", userMsg "hi"] ∧
    (processInput
        (fun msgs => .ok (natDec ((msgs.filter (fun m => m == userMsg "hi")).length)))
        "t1" "t2" "T" ⟨"You are a helpful assistant.", [], ⟨none, 0⟩⟩ [] none
        "hi").reply = .ok "2" :=
  ⟨by decide, by rfl⟩

set_option maxRecDepth 1000000 in
/-- C2 (counterexample): the cap runs only on the success path, so the
claim "the length of `sequence` never exceeds 40 after a call returns,
whatever the backend returns" is false. Twenty successful turns build a
40-entry history; the next call's backend failure leaves the user message
appended and returns early, so 41 entries remain. -/
theorem claim_C2_counterexample :
    (runInputs bkC2 "t1" "t2" "T" ⟨.ok "", ⟨"b", [], ⟨none, 0⟩⟩, [], none⟩
      inputsC2).st.messages.length = 41 := by
  rfl

/-- C2 (amended): after any `processInput` call whose backend invocation
succeeds, a `sequence` that was within the cap stays within it: the new
history is the old one plus the user and assistant turns with the oldest
entries dropped first (order of the rest preserved), and its length is at
most 40. Only a call whose backend invocation fails can exceed the cap. -/
theorem claim_C2_amended (backend : List Message → Except String String)
    (tsU tsA now : String) (s : ChatState) (log : List String)
    (file : Option String) (input : String) (r : String)
    (hlen : s.messages.length ≤ 40)
    (h1 : ¬(rustTrim input = ""))
    (h2 : ¬((rustTrim input).data.head? = some '/'))
    (hb : backend (llmMessagesFor s (rustTrim input)) = .ok r) :
    (processInput backend tsU tsA now s log file input).st.messages =
      (s.messages ++ [userMsg (rustTrim input), assistantMsg r]).drop
        (s.messages.length + 2 - 40) ∧
    (processInput backend tsU tsA now s log file input).st.messages.length ≤ 40 := by
  rw [processInput_ok backend tsU tsA now s log file input r h1 h2 hb]
  constructor
  · rw [cap40_eq_drop]
    simp
  · rw [cap40_eq_drop]
    simp only [List.length_drop, List.length_append, List.length_cons,
      List.length_nil]
    omega

/-- Witness for C2 (amended): from a full 40-entry history, a successful
turn evicts the two oldest entries and leaves exactly 40. -/
theorem claim_C2_amended_witness :
    (processInput (fun _ => Except.ok "r") "t1" "t2" "T"
        ⟨"b", List.replicate 40 (assistantMsg "x"), ⟨none, 0⟩⟩ [] none
        "hi").st.messages =
      ((List.replicate 40 (assistantMsg "x") : List Message) ++
        [userMsg (rustTrim "hi"), assistantMsg "r"]).drop
        ((List.replicate 40 (assistantMsg "x") : List Message).length + 2 - 40) ∧
    (processInput (fun _ => Except.ok "r") "t1" "t2" "T"
        ⟨"b", List.replicate 40 (assistantMsg "x"), ⟨none, 0⟩⟩ [] none
        "hi").st.messages.length ≤ 40 :=
  claim_C2_amended (fun _ => Except.ok "r") "t1" "t2" "T"
    ⟨"b", List.replicate 40 (assistantMsg "x"), ⟨none, 0⟩⟩ [] none "hi" "r"
    (by decide) (by decide) (by decide) (by rfl)

/-- C3: when the backend call fails, `processInput` returns the error, the
user's message stays in `sequence` with no assistant message added for the
turn, the error text is not written to the transcript (only the user line
was appended), the summary file is untouched, and the prompt built for any
later input contains no assistant message beyond those already in the
history before the failed turn. -/
theorem claim_C3_failure_keeps_user_message
    (backend : List Message → Except String String)
    (tsU tsA now : String) (s : ChatState) (log : List String)
    (file : Option String) (input e : String)
    (h1 : ¬(rustTrim input = ""))
    (h2 : ¬((rustTrim input).data.head? = some '/'))
    (hb : backend (llmMessagesFor s (rustTrim input)) = .error e) :
    (processInput backend tsU tsA now s log file input).reply = .error e ∧
    (processInput backend tsU tsA now s log file input).st.messages =
      s.messages ++ [userMsg (rustTrim input)] ∧
    (processInput backend tsU tsA now s log file input).chatLog =
      log ++ [logLine tsU "user" (rustTrim input)] ∧
    (processInput backend tsU tsA now s log file input).summary = file ∧
    ∀ input2,
      (llmMessagesFor (processInput backend tsU tsA now s log file input).st
          input2).filter isAsst = s.messages.filter isAsst := by
  rw [processInput_err backend tsU tsA now s log file input e h1 h2 hb]
  refine ⟨rfl, rfl, rfl, rfl, ?_⟩
  intro input2
  rw [filter_asst_llm]
  simp [List.filter_append, isAsst, userMsg]

/-- Witness for C3 at a concrete failing turn. -/
theorem claim_C3_witness :
    (processInput (fun _ => Except.error "boom") "t1" "t2" "T"
        ⟨"b", [assistantMsg "old"], ⟨none, 0⟩⟩ ["L"] none "hi").reply =
      .error "boom" ∧
    (processInput (fun _ => Except.error "boom") "t1" "t2" "T"
        ⟨"b", [assistantMsg "old"], ⟨none, 0⟩⟩ ["L"] none "hi").st.messages =
      [assistantMsg "old"] ++ [userMsg (rustTrim "hi")] ∧
    (processInput (fun _ => Except.error "boom") "t1" "t2" "T"
        ⟨"b", [assistantMsg "old"], ⟨none, 0⟩⟩ ["L"] none "hi").chatLog =
      ["L"] ++ [logLine "t1" "user" (rustTrim "hi")] ∧
    (processInput (fun _ => Except.error "boom") "t1" "t2" "T"
        ⟨"b", [assistantMsg "old"], ⟨none, 0⟩⟩ ["L"] none "hi").summary = none ∧
    (llmMessagesFor
        (processInput (fun _ => Except.error "boom") "t1" "t2" "T"
          ⟨"b", [assistantMsg "old"], ⟨none, 0⟩⟩ ["L"] none "hi").st
        "next").filter isAsst =
      ([assistantMsg "old"] : List Message).filter isAsst := by
  have h := claim_C3_failure_keeps_user_message (fun _ => Except.error "boom")
    "t1" "t2" "T" ⟨"b", [assistantMsg "old"], ⟨none, 0⟩⟩ ["L"] none "hi" "boom"
    (by decide) (by decide) (by rfl)
  exact ⟨h.1, h.2.1, h.2.2.1, h.2.2.2.1, h.2.2.2.2 "next"⟩

/-- C4 (counterexample): the command interpreter recognizes `/name`, not
`/set-name`. Processing `"/set-name Ada"` hits the unknown-command branch:
the reply does not contain `"Ada"`, no name is stored in memory, and no
summary file is written. -/
theorem claim_C4_counterexample :
    (processInput (fun _ => Except.error "x") "t1" "t2" "T"
        ⟨"b", [], ⟨none, 3⟩⟩ [] none "/set-name Ada").reply =
      Except.ok "Unknown command. Type /help for available commands." ∧
    strHas "Unknown command. Type /help for available commands." "Ada" = false ∧
    (processInput (fun _ => Except.error "x") "t1" "t2" "T"
        ⟨"b", [], ⟨none, 3⟩⟩ [] none "/set-name Ada").st =
      ⟨"b", [], ⟨none, 3⟩⟩ ∧
    (processInput (fun _ => Except.error "x") "t1" "t2" "T"
        ⟨"b", [], ⟨none, 3⟩⟩ [] none "/set-name Ada").summary = none :=
  ⟨by rfl, by decide, by rfl, by rfl⟩

/-- C4 (amended): the working spelling of the command is `/name Ada`. It
returns the confirmation `"Nice to meet you, Ada!"` (containing `"Ada"`),
stores the name in the in-memory summary, rewrites the summary file with
`name` set to `Ada` while preserving the parsed `total_sessions`, leaves
the transcript alone, and a subsequent session start on that file greets
with a welcome message containing `"Ada"`. -/
theorem claim_C4_amended (backend : List Message → Except String String)
    (tsU tsA now now2 : String) (s : ChatState) (log : List String)
    (file : Option String) (hnow : lineOk now = true) :
    (processInput backend tsU tsA now s log file "/name Ada").reply =
      Except.ok "Nice to meet you, Ada!" ∧
    strHas "Nice to meet you, Ada!" "Ada" = true ∧
    (processInput backend tsU tsA now s log file "/name Ada").st.userSummary =
      { s.userSummary with name := some "Ada" } ∧
    (processInput backend tsU tsA now s log file "/name Ada").st.messages =
      s.messages ∧
    (processInput backend tsU tsA now s log file "/name Ada").chatLog = log ∧
    parseSummaryFile (processInput backend tsU tsA now s log file "/name Ada").summary =
      ⟨some "Ada", (parseSummaryFile file).total_sessions⟩ ∧
    strHas
      (welcomeMessage
        (updateSessionStart now2
          (processInput backend tsU tsA now s log file "/name Ada").summary).1)
      "Ada" = true := by
  have hname : ∀ n : String, (some "Ada" : Option String) = some n →
      rustTrim n = n ∧ noNl n = true := by
    intro n hn
    injection hn with hn'
    subst hn'
    exact ⟨by decide, by decide⟩
  have hout : processInput backend tsU tsA now s log file "/name Ada" =
      ⟨Except.ok "Nice to meet you, Ada!",
       { s with userSummary := { s.userSummary with name := some "Ada" } },
       log, some (setUserName "Ada" now file)⟩ := rfl
  have hparse : parseSummaryFile (some (setUserName "Ada" now file)) =
      ⟨some "Ada", (parseSummaryFile file).total_sessions⟩ := by
    cases file with
    | none =>
      simp only [setUserName, parseSummaryFile]
      exact parse_write (some "Ada") 0 now hnow (by omega) hname
    | some c =>
      simp only [setUserName, parseSummaryFile]
      rw [parse_write (some "Ada") (parseTotalOnly (rustLines c)) now hnow
        (parseTotalOnly_lt _) hname]
      rw [parseTotalOnly_eq]
  have hwel : welcomeMessage
      (updateSessionStart now2 (some (setUserName "Ada" now file))).1 =
      "Welcome back, Ada! How can I help you today?" := by
    have h1 : (updateSessionStart now2 (some (setUserName "Ada" now file))).1 =
        ⟨some "Ada",
         ((parseSummaryFile file).total_sessions + 1) % 4294967296⟩ := by
      simp [updateSessionStart, hparse]
    rw [h1]
    rfl
  rw [hout]
  exact ⟨rfl, by decide, rfl, rfl, rfl, hparse, by rw [hwel]; decide⟩

/-- Witness for C4 (amended) on an absent summary file. -/
theorem claim_C4_amended_witness :
    (processInput (fun _ => Except.error "x") "t1" "t2" "T"
        ⟨"b", [], ⟨none, 0⟩⟩ [] none "/name Ada").reply =
      Except.ok "Nice to meet you, Ada!" ∧
    strHas "Nice to meet you, Ada!" "Ada" = true ∧
    (processInput (fun _ => Except.error "x") "t1" "t2" "T"
        ⟨"b", [], ⟨none, 0⟩⟩ [] none "/name Ada").st.userSummary =
      { (⟨none, 0⟩ : UserSummary) with name := some "Ada" } ∧
    (processInput (fun _ => Except.error "x") "t1" "t2" "T"
        ⟨"b", [], ⟨none, 0⟩⟩ [] none "/name Ada").st.messages = [] ∧
    (processInput (fun _ => Except.error "x") "t1" "t2" "T"
        ⟨"b", [], ⟨none, 0⟩⟩ [] none "/name Ada").chatLog = [] ∧
    parseSummaryFile
      (processInput (fun _ => Except.error "x") "t1" "t2" "T"
        ⟨"b", [], ⟨none, 0⟩⟩ [] none "/name Ada").summary =
      ⟨some "Ada", (parseSummaryFile none).total_sessions⟩ ∧
    strHas
      (welcomeMessage
        (updateSessionStart "T2"
          (processInput (fun _ => Except.error "x") "t1" "t2" "T"
            ⟨"b", [], ⟨none, 0⟩⟩ [] none "/name Ada").summary).1)
      "Ada" = true :=
  claim_C4_amended (fun _ => Except.error "x") "t1" "t2" "T" "T2"
    ⟨"b", [], ⟨none, 0⟩⟩ [] none (by decide)

/-- C5: over any byte sequence fed from a fresh connection, the number of
erase-one-character echo instructions never exceeds the number of
printable-character echoes (each of which appends one character to the
line buffer), and a backspace or delete byte on an empty buffer emits
nothing and leaves the state unchanged. -/
theorem claim_C5_erase_bounded :
    (∀ bs : List Nat,
      countErase (processChunk "" bs).2 ≤ countEchoChar (processChunk "" bs).2) ∧
    termStep "" 127 = ("", [], false) ∧ termStep "" 8 = ("", [], false) := by
  refine ⟨?_, by rfl, by rfl⟩
  intro bs
  have h := processChunk_inv bs ""
  have h0 : ("" : String).data.length = 0 := rfl
  omega

/-- C6: feeding `"hello\r"` and then `"\n"` as two chunks produces exactly
one completed-line event, with content `"hello"`; and for any buffer
state, a carriage-return or line-feed byte empties the buffer and emits
the trimmed buffer as the single completed-line event when the trim is
non-empty (and no event otherwise). -/
theorem claim_C6_line_completion :
    lineEvents ((processChunk "" [104, 101, 108, 108, 111, 13]).2 ++
        (processChunk (processChunk "" [104, 101, 108, 108, 111, 13]).1 [10]).2) =
      ["hello"] ∧
    ∀ buf : String,
      (processChunk buf [13]).1 = "" ∧ (processChunk buf [10]).1 = "" ∧
      lineEvents (processChunk buf [13]).2 =
        (if rustTrim buf = "" then [] else [rustTrim buf]) ∧
      lineEvents (processChunk buf [10]).2 =
        (if rustTrim buf = "" then [] else [rustTrim buf]) := by
  refine ⟨by decide, ?_⟩
  intro buf
  by_cases ht : rustTrim buf = "" <;>
    refine ⟨?_, ?_, ?_, ?_⟩ <;>
      simp [processChunk, termStep, lineEvents, ht]

/-- C7 (counterexample): save-then-load does not round-trip `name`
exactly for every summary: the loader trims the value, so a name with
leading whitespace (here `" Ada"`) loads back as `"Ada"`. -/
theorem claim_C7_counterexample :
    (parseSummary (rustLines (writeSummaryStr ⟨some " Ada", 0⟩ "T"))).name ≠
      some " Ada" ∧
    (parseSummary (rustLines (writeSummaryStr ⟨some " Ada", 0⟩ "T"))).name =
      some "Ada" :=
  ⟨by decide, by decide⟩

/-- C7 (amended): for any non-empty run of session starts (with
newline-free timestamps) on an initially absent summary file, fewer than
`2^32` of them, the summary returned by the last start and the summary
parsed back from the persisted file both have `total_sessions` equal to
the number of starts (and no name); and save-then-load round-trips a
summary exactly — in particular its `name` — provided the name is already
trimmed and contains no newline (which holds for every name the program
stores, since the command interpreter trims it). -/
theorem claim_C7_amended :
    (∀ nows : List String, nows ≠ [] → (∀ t ∈ nows, lineOk t = true) →
      nows.length < 4294967296 →
      (startsOutcome nows none).1 = ⟨none, nows.length⟩ ∧
      parseSummaryFile (startsOutcome nows none).2 = ⟨none, nows.length⟩) ∧
    (∀ (su : UserSummary) (now : String), lineOk now = true →
      su.total_sessions < 4294967296 →
      (∀ n, su.name = some n → rustTrim n = n ∧ noNl n = true) →
      parseSummary (rustLines (writeSummaryStr su now)) = su) := by
  constructor
  · intro nows hne h hlen
    have hinv := startsFold_inv nows none 0 ⟨none, 0⟩ h rfl (by omega)
    have hmod : (0 + nows.length) % 4294967296 = nows.length := by omega
    rw [hmod] at hinv
    have hemp : nows.isEmpty = false := by
      cases nows with
      | nil => exact absurd rfl hne
      | cons a b => rfl
    obtain ⟨hA, hB⟩ := hinv
    rw [hemp] at hB
    simp only [Bool.false_eq_true, if_false] at hB
    exact ⟨hB, hA⟩
  · intro su now hnow ht hnm
    obtain ⟨nm, t⟩ := su
    exact parse_write nm t now hnow ht hnm

/-- Witness for C7 (amended): three session starts with concrete
timestamps give `total_sessions = 3` both returned and persisted, and a
concrete summary round-trips unchanged. -/
theorem claim_C7_amended_witness :
    (startsOutcome ["a", "b", "c"] none).1 = ⟨none, 3⟩ ∧
    parseSummaryFile (startsOutcome ["a", "b", "c"] none).2 = ⟨none, 3⟩ ∧
    parseSummary (rustLines (writeSummaryStr ⟨some "Ada", 7⟩ "T")) =
      ⟨some "Ada", 7⟩ := by
  have hA := claim_C7_amended.1 ["a", "b", "c"] (by decide) (by decide) (by decide)
  have hB := claim_C7_amended.2 ⟨some "Ada", 7⟩ "T" (by decide) (by decide)
    (by
      intro n hn
      injection hn with hn'
      subst hn'
      exact ⟨by decide, by decide⟩)
  exact ⟨hA.1, hA.2, hB⟩

/-- C8: the `/clear` command empties `sequence` and nothing else: the
reply is the fixed confirmation, the summary (name and session count) and
base prompt are unchanged, the transcript file is untouched, the summary
file is untouched, and reading the transcript back afterwards yields
exactly what it yielded before. -/
theorem claim_C8_clear_frame (backend : List Message → Except String String)
    (tsU tsA now : String) (s : ChatState) (log : List String)
    (file : Option String) :
    (processInput backend tsU tsA now s log file "/clear").reply =
      Except.ok "Chat history cleared." ∧
    (processInput backend tsU tsA now s log file "/clear").st.messages = [] ∧
    (processInput backend tsU tsA now s log file "/clear").st.userSummary =
      s.userSummary ∧
    (processInput backend tsU tsA now s log file "/clear").st.sysBase =
      s.sysBase ∧
    (processInput backend tsU tsA now s log file "/clear").chatLog = log ∧
    (processInput backend tsU tsA now s log file "/clear").summary = file ∧
    loadTodayHistory (processInput backend tsU tsA now s log file "/clear").chatLog =
      loadTodayHistory log :=
  ⟨rfl, rfl, rfl, rfl, rfl, rfl, rfl⟩

/-- C10: loading a summary file whose `total_sessions` value is present
but not parseable as a `u32` (trimmed) treats the value as 0 — loading
never fails — so the session start that reads the file returns
`total_sessions = 1` and persists a file that parses back to
`total_sessions = 1`. -/
theorem claim_C10_malformed_counter (v now : String)
    (hv : lineOk v = true) (hpv : parseU32 (rustTrim v) = none)
    (hnow : lineOk now = true) :
    (updateSessionStart now (some ("total_sessions: " ++ v ++ "\n"))).1 =
      ⟨none, 1⟩ ∧
    parseSummaryFile
      (some (updateSessionStart now
        (some ("total_sessions: " ++ v ++ "\n"))).2) = ⟨none, 1⟩ := by
  have hfile : ("total_sessions: " ++ v ++ "\n") =
      joinNl ["total_sessions: " ++ v] := by
    ext1
    simp [joinNl, String.data_append]
  have hparse0 : parseSummaryFile (some ("total_sessions: " ++ v ++ "\n")) =
      ⟨none, 0⟩ := by
    rw [hfile]
    simp only [parseSummaryFile]
    rw [rustLines_joinNl _ (by
      intro l hl
      simp only [List.mem_singleton] at hl
      subst hl
      exact lineOk_concat (by decide) (by decide) hv)]
    rw [parseSummary, List.foldl_cons, List.foldl_nil, summStep_totalLine]
    simp [parseU32OrZero, hpv]
  have h1 := updateSessionStart_anon now hparse0 hnow
  have hone : ((0 : Nat) + 1) % 4294967296 = 1 := by norm_num
  rw [hone] at h1
  exact h1

/-- Witness for C10 at the malformed value `"abc"`. -/
theorem claim_C10_witness :
    (updateSessionStart "T" (some ("total_sessions: " ++ "abc" ++ "\n"))).1 =
      ⟨none, 1⟩ ∧
    parseSummaryFile
      (some (updateSessionStart "T"
        (some ("total_sessions: " ++ "abc" ++ "\n"))).2) = ⟨none, 1⟩ :=
  claim_C10_malformed_counter "abc" "T" (by decide) (by decide) (by decide)

end SshLlm
